import Mathlib

/-!
Shallow embedding of the text segmentation core of `pdf-extract-text`
(`src/lib.rs`): the artifact filter `clean_text`, the page segmenter
`split_text_into_pages`, and the overlapping chunker exposed through
`extract_text_chunks`.  Strings are modelled as `List Char` (Rust `&str`
is a sequence of Unicode scalar values, as is Lean `Char`).
-/

/-- Rust `char::is_whitespace`: the Unicode White_Space property.  This is
the complete list of White_Space code points. -/
def isRustWhitespace (c : Char) : Bool :=
  c = ' ' || c = '\t' || c = '\n' || c = '\x0b' || c = '\x0c' || c = '\r' ||
  c.toNat = 0x85 || c.toNat = 0xA0 || c.toNat = 0x1680 ||
  (0x2000 ≤ c.toNat && c.toNat ≤ 0x200A) ||
  c.toNat = 0x2028 || c.toNat = 0x2029 || c.toNat = 0x202F ||
  c.toNat = 0x205F || c.toNat = 0x3000

/-- Character class used by `clean_text` (Rust `char::is_numeric`).  Rust
accepts any character of Unicode general category Nd, Nl or No; on the
ASCII range that coincides with the decimal digits `0`-`9`, which is the
fragment modelled here (the inputs of all claims are ASCII). -/
def is_numeric (c : Char) : Bool :=
  '0' ≤ c && c ≤ '9'

/-- Rust `str::trim`: remove leading and trailing whitespace. -/
def rustTrim (l : List Char) : List Char :=
  ((l.dropWhile isRustWhitespace).reverse.dropWhile isRustWhitespace).reverse

/-- Split at every newline character; the pieces still carry no `\n` and
the result is never empty (an empty input gives one empty piece). -/
def splitNl : List Char → List (List Char)
  | [] => [[]]
  | c :: rest =>
    if c = '\n' then [] :: splitNl rest
    else
      match splitNl rest with
      | [] => [[c]]
      | l :: ls => (c :: l) :: ls

/-- Remove one trailing carriage return, as Rust `lines` does on every
piece that was terminated by a `\n`. -/
def stripCR (l : List Char) : List Char :=
  match l.getLast? with
  | some '\r' => l.dropLast
  | _ => l

/-- Rust `str::lines`: pieces between `\n` terminators, one trailing
`\r` stripped from every piece that ended with `\n`; a final piece
without terminator is kept unstripped, unless it is empty. -/
def rustLines (cs : List Char) : List (List Char) :=
  let ps := splitNl cs
  ps.dropLast.map stripCR ++
    (match ps.getLast? with
     | some [] => []
     | some l => [l]
     | none => [])

/-- The retention predicate of `clean_text` (`src/lib.rs` line 94): keep a
line unless every character of its trimmed form is numeric. -/
def lineKept (l : List Char) : Bool :=
  !((rustTrim l).all is_numeric)

/-- Rust `Vec::join("\n")`: the pieces separated by single newlines, no
trailing separator. -/
def joinNl : List (List Char) → List Char
  | [] => []
  | [x] => x
  | x :: y :: rest => x ++ '\n' :: joinNl (y :: rest)

/-- Function `clean_text` (`src/lib.rs` lines 92-97): drop numeric-only lines and
rejoin the survivors with a single `\n`. -/
def clean_text (cs : List Char) : List Char :=
  joinNl ((rustLines cs).filter lineKept)


/-- Decimal value of a digit string, most significant first (the value
computed by a successful Rust `u32::from_str` on those digits). -/
def digitsToNat (ds : List Char) : Nat :=
  ds.foldl (fun a c => 10 * a + (c.toNat - '0'.toNat)) 0

/-- The digit-run part of Rust unsigned integer parsing: one or more ASCII
decimal digits whose value is at most `2 ^ 32 - 1`. -/
def parseDigitsU32 (ds : List Char) : Option Nat :=
  if ds.isEmpty then none
  else if ds.all Char.isDigit then
    if digitsToNat ds < 4294967296 then some (digitsToNat ds) else none
  else none

/-- Rust `str::parse::<u32>()`: an optional leading `+` sign followed by
one or more ASCII decimal digits, value at most `2 ^ 32 - 1`; anything
else (including a `-` sign, which unsigned parsing rejects) fails. -/
def parseU32 (l : List Char) : Option Nat :=
  parseDigitsU32 (if l.head? = some '+' then l.tail else l)

/-- Structure `Page` (`src/lib.rs` lines 9-13); `page` is a Rust `u32`, modelled as a
`Nat` that the segmenter only ever instantiates below `2 ^ 32`. -/
structure Page where
  page : Nat
  text : List Char
deriving DecidableEq, Repr

/-- The loop of `split_text_into_pages` (`src/lib.rs` lines 105-127),
including the final flush: state is the emitted pages, the current page
number (`0` = none yet) and the body buffer. -/
def segRun : List (List Char) → List Page → Nat → List Char → List Page
  | [], pages, current, buffer =>
    if 0 < current ∧ rustTrim buffer ≠ [] then
      pages ++ [⟨current, rustTrim buffer⟩]
    else pages
  | line :: rest, pages, current, buffer =>
    match parseU32 (rustTrim line) with
    | some n =>
      if 0 < current then segRun rest (pages ++ [⟨current, rustTrim buffer⟩]) n []
      else segRun rest pages n buffer
    | none => segRun rest pages current (buffer ++ line)

/-- Function `split_text_into_pages` (`src/lib.rs` lines 100-130). -/
def split_text_into_pages (cs : List Char) : List Page :=
  segRun (rustLines cs) [] 0 []

/-- Structure `TextChunk` (`src/lib.rs` lines 15-19). -/
structure TextChunk where
  id : Nat
  text : List Char
deriving DecidableEq, Repr

/-- Modelled from the spec: the window computation performed by the
external `text_splitter` crate (`TextSplitter::chunks`), whose sources are
not part of this repository.  Per the spec, maximal contiguous windows of
length `size`, the final window possibly shorter; the start advances by
`stride = chunk_size - overlap` each step and iteration stops once a
window reaches the end of the text, never producing an empty trailing
chunk.  The first argument is fuel; `size < length` and `0 < stride` make
every step drop at least one character, so `cs.length` fuel is enough. -/
def chunkWindowsAux : Nat → List Char → Nat → Nat → List (List Char)
  | 0, cs, _, _ => if cs.isEmpty then [] else [cs]
  | fuel + 1, cs, size, stride =>
    if cs.length ≤ size then (if cs.isEmpty then [] else [cs])
    else cs.take size :: chunkWindowsAux fuel (cs.drop stride) size stride

/-- Modelled from the spec: the chunk windows of a text. -/
def chunkWindows (cs : List Char) (size stride : Nat) : List (List Char) :=
  chunkWindowsAux cs.length cs size stride

/-- The fixed tail of the configuration error message built in
`extract_text_chunks` (`src/lib.rs` lines 48-51); the part after the colon
is modelled from the spec, standing for the display text of the external
configuration error, which is not part of this repository. -/
def chunkCfgTail : String :=
  "): overlap must be less than the chunk capacity"

/-- The chunking part of `extract_text_chunks` (`src/lib.rs` lines 46-64):
configuration validation (modelled from the spec: the external
`ChunkConfig::with_overlap` fails exactly when `overlap >= chunk_size`,
which also covers `chunk_size == 0`), the error message built in
`src/lib.rs`, and sequential ids from `enumerate`. -/
def chunk (cs : List Char) (chunk_size chunk_overlap : Nat) :
    Except String (List TextChunk) :=
  if chunk_size ≤ chunk_overlap ∨ chunk_size = 0 then
    Except.error ("Invalid chunk config (chunk_size=" ++ toString chunk_size ++
      ", overlap=" ++ toString chunk_overlap ++ chunkCfgTail)
  else
    Except.ok (((chunkWindows cs chunk_size (chunk_size - chunk_overlap)).enum.map
      (fun p => ⟨p.1, p.2⟩)))

/-- Function `extract_text_chunks` after decoding (`src/lib.rs` lines 44-64): clean
the text, then chunk it. -/
def extract_text_chunks (cs : List Char) (chunk_size chunk_overlap : Nat) :
    Except String (List TextChunk) :=
  chunk (clean_text cs) chunk_size chunk_overlap

/-- Concatenation of the non-overlapping portions of the chunk texts: the
first window whole, every later window without its leading
`overlap`-sized prefix. -/
def reconstructParts (ov : Nat) : List (List Char) → List Char
  | [] => []
  | t :: rest => t ++ (rest.map (List.drop ov)).flatten

/-- Marker classification written as the amended spec describes it: the
line is a nonempty run of ASCII decimal digits, possibly preceded by one
`+` sign, whose value fits in 32 bits. -/
def markerProp (l : List Char) : Prop :=
  ∃ ds : List Char, (l = ds ∨ l = '+' :: ds) ∧ ds ≠ [] ∧
    (∀ c ∈ ds, c.isDigit) ∧ digitsToNat ds < 4294967296

/-! Lemmas about line splitting and rejoining -/

theorem splitNl_ne_nil (cs : List Char) : splitNl cs ≠ [] := by
  cases cs with
  | nil => simp [splitNl]
  | cons c rest =>
    simp only [splitNl]
    split
    · simp
    · cases h : splitNl rest <;> simp

theorem mem_splitNl_no_newline :
    ∀ (cs : List Char), ∀ x ∈ splitNl cs, '\n' ∉ x := by
  intro cs
  induction cs with
  | nil => intro x hx; simp [splitNl] at hx; simp [hx]
  | cons c rest ih =>
    intro x hx
    simp only [splitNl] at hx
    by_cases hc : c = '\n'
    · rw [if_pos hc] at hx
      rcases List.mem_cons.mp hx with h | h
      · simp [h]
      · exact ih x h
    · rw [if_neg hc] at hx
      rcases hps : splitNl rest with _ | ⟨l, ls⟩
      · exact absurd hps (splitNl_ne_nil rest)
      · rw [hps] at hx
        rcases List.mem_cons.mp hx with h | h
        · subst h
          intro hmem
          rcases List.mem_cons.mp hmem with h | h
          · exact hc h.symm
          · exact ih l (hps ▸ List.mem_cons_self l ls) h
        · exact ih x (hps ▸ List.mem_cons_of_mem l h)

theorem mem_splitNl_chars :
    ∀ (cs : List Char), ∀ x ∈ splitNl cs, ∀ a ∈ x, a ∈ cs := by
  intro cs
  induction cs with
  | nil => intro x hx a ha; simp [splitNl] at hx; subst hx; simp at ha
  | cons c rest ih =>
    intro x hx a ha
    simp only [splitNl] at hx
    by_cases hc : c = '\n'
    · rw [if_pos hc] at hx
      rcases List.mem_cons.mp hx with h | h
      · subst h; simp at ha
      · exact List.mem_cons_of_mem c (ih x h a ha)
    · rw [if_neg hc] at hx
      rcases hps : splitNl rest with _ | ⟨l, ls⟩
      · exact absurd hps (splitNl_ne_nil rest)
      · rw [hps] at hx
        rcases List.mem_cons.mp hx with h | h
        · subst h
          rcases List.mem_cons.mp ha with h | h
          · simp [h]
          · exact List.mem_cons_of_mem c
              (ih l (hps ▸ List.mem_cons_self l ls) a h)
        · exact List.mem_cons_of_mem c
            (ih x (hps ▸ List.mem_cons_of_mem l h) a ha)

theorem splitNl_of_no_newline {x : List Char} (h : '\n' ∉ x) :
    splitNl x = [x] := by
  induction x with
  | nil => rfl
  | cons c rest ih =>
    have hc : c ≠ '\n' := fun hc => h (hc ▸ List.mem_cons_self c rest)
    have hrest : '\n' ∉ rest := fun hm => h (List.mem_cons_of_mem c hm)
    simp only [splitNl, if_neg hc, ih hrest]

theorem splitNl_append_newline {x : List Char} (r : List Char)
    (h : '\n' ∉ x) : splitNl (x ++ '\n' :: r) = x :: splitNl r := by
  induction x with
  | nil => simp [splitNl]
  | cons c rest ih =>
    have hc : c ≠ '\n' := fun hc => h (hc ▸ List.mem_cons_self c rest)
    have hrest : '\n' ∉ rest := fun hm => h (List.mem_cons_of_mem c hm)
    simp only [List.cons_append, splitNl, if_neg hc, List.append_eq, ih hrest]

theorem stripCR_of_no_cr {x : List Char} (h : '\r' ∉ x) : stripCR x = x := by
  unfold stripCR
  split
  · rename_i heq
    exact absurd (List.mem_of_getLast?_eq_some heq) h
  · rfl

theorem rustLines_joinNl :
    ∀ L : List (List Char),
      (∀ x ∈ L, x ≠ [] ∧ '\n' ∉ x ∧ '\r' ∉ x) →
      rustLines (joinNl L) = L := by
  intro L
  induction L with
  | nil => intro _; rfl
  | cons x L ih =>
    intro hL
    obtain ⟨hxne, hxnl, hxcr⟩ := hL x (List.mem_cons_self x L)
    cases L with
    | nil =>
      simp only [joinNl, rustLines, splitNl_of_no_newline hxnl]
      cases x with
      | nil => exact absurd rfl hxne
      | cons a as => rfl
    | cons y L2 =>
      have hL2 : ∀ z ∈ y :: L2, z ≠ [] ∧ '\n' ∉ z ∧ '\r' ∉ z :=
        fun z hz => hL z (List.mem_cons_of_mem x hz)
      have step : joinNl (x :: y :: L2) = x ++ '\n' :: joinNl (y :: L2) := rfl
      rw [step]
      have hsplit := splitNl_append_newline (joinNl (y :: L2)) hxnl
      have hne := splitNl_ne_nil (joinNl (y :: L2))
      unfold rustLines
      rw [hsplit]
      rcases hps : splitNl (joinNl (y :: L2)) with _ | ⟨p, ps⟩
      · exact absurd hps hne
      · have hprev := ih hL2
        unfold rustLines at hprev
        rw [hps] at hprev
        simp only [List.dropLast_cons₂, List.map_cons, List.getLast?_cons_cons,
          List.cons_append]
        rw [stripCR_of_no_cr hxcr]
        exact congrArg (x :: ·) hprev

theorem mem_rustLines_no_newline {cs : List Char} :
    ∀ x ∈ rustLines cs, '\n' ∉ x := by
  intro x hx
  unfold rustLines at hx
  rcases List.mem_append.mp hx with h | h
  · obtain ⟨p, hp, hpx⟩ := List.mem_map.mp h
    have hpmem : p ∈ splitNl cs :=
      (List.dropLast_sublist (splitNl cs)).subset hp
    have hno := mem_splitNl_no_newline cs p hpmem
    intro hmem
    apply hno
    subst hpx
    unfold stripCR at hmem
    split at hmem
    · exact (List.dropLast_sublist p).subset hmem
    · exact hmem
  · rcases hl : (splitNl cs).getLast? with _ | q
    · rw [hl] at h; simp at h
    · rw [hl] at h
      have hq : q ∈ splitNl cs := List.mem_of_getLast?_eq_some hl
      have := mem_splitNl_no_newline cs q hq
      cases q with
      | nil => simp at h
      | cons a as =>
        have : x = a :: as := by simpa using h
        subst this
        exact mem_splitNl_no_newline cs _ hq

theorem mem_rustLines_chars {cs : List Char} :
    ∀ x ∈ rustLines cs, ∀ a ∈ x, a ∈ cs := by
  intro x hx a ha
  unfold rustLines at hx
  rcases List.mem_append.mp hx with h | h
  · obtain ⟨p, hp, hpx⟩ := List.mem_map.mp h
    have hpmem : p ∈ splitNl cs :=
      (List.dropLast_sublist (splitNl cs)).subset hp
    apply mem_splitNl_chars cs p hpmem a
    subst hpx
    unfold stripCR at ha
    split at ha
    · exact (List.dropLast_sublist p).subset ha
    · exact ha
  · rcases hl : (splitNl cs).getLast? with _ | q
    · rw [hl] at h; simp at h
    · rw [hl] at h
      have hq : q ∈ splitNl cs := List.mem_of_getLast?_eq_some hl
      cases q with
      | nil => simp at h
      | cons b bs =>
        have : x = b :: bs := by simpa using h
        subst this
        exact mem_splitNl_chars cs _ hq a ha

theorem lineKept_nil_false : lineKept ([] : List Char) = false := rfl

theorem rustLines_clean_text {cs : List Char} (h : '\r' ∉ cs) :
    rustLines (clean_text cs) = (rustLines cs).filter lineKept := by
  unfold clean_text
  apply rustLines_joinNl
  intro x hx
  have hmem : x ∈ rustLines cs := List.mem_of_mem_filter hx
  have hkept : lineKept x = true := List.of_mem_filter hx
  refine ⟨?_, mem_rustLines_no_newline x hmem, ?_⟩
  · intro hnil
    rw [hnil, lineKept_nil_false] at hkept
    exact Bool.false_ne_true hkept
  · intro hcr
    exact h (mem_rustLines_chars x hmem '\r' hcr)

/-! Lemmas about the segmenter -/

theorem parseDigitsU32_lt {ds : List Char} {n : Nat}
    (h : parseDigitsU32 ds = some n) : n < 4294967296 := by
  unfold parseDigitsU32 at h
  split at h
  · exact absurd h (by simp)
  · split at h
    · split at h
      · rename_i hlt
        injection h with h
        exact h ▸ hlt
      · exact absurd h (by simp)
    · exact absurd h (by simp)

theorem parseU32_lt {l : List Char} {n : Nat} (h : parseU32 l = some n) :
    n < 4294967296 := by
  unfold parseU32 at h
  exact parseDigitsU32_lt h

theorem segRun_invariant :
    ∀ (lines : List (List Char)) (pages : List Page) (current : Nat)
      (buffer : List Char),
      (∀ p ∈ pages, 0 < p.page ∧ p.page < 4294967296) →
      current < 4294967296 →
      ∀ p ∈ segRun lines pages current buffer,
        0 < p.page ∧ p.page < 4294967296 := by
  intro lines
  induction lines with
  | nil =>
    intro pages current buffer hp hc p hmem
    unfold segRun at hmem
    split at hmem
    · rename_i hcond
      rcases List.mem_append.mp hmem with h | h
      · exact hp p h
      · have : p = ⟨current, rustTrim buffer⟩ := by simpa using h
        subst this
        exact ⟨hcond.1, hc⟩
    · exact hp p hmem
  | cons line rest ih =>
    intro pages current buffer hp hc p hmem
    rcases hparse : parseU32 (rustTrim line) with _ | n
    · simp only [segRun, hparse] at hmem
      exact ih pages current (buffer ++ line) hp hc p hmem
    · have hn : n < 4294967296 := parseU32_lt hparse
      by_cases hcur : 0 < current
      · simp only [segRun, hparse, if_pos hcur] at hmem
        refine ih _ n [] ?_ hn p hmem
        intro q hq
        rcases List.mem_append.mp hq with h | h
        · exact hp q h
        · have : q = ⟨current, rustTrim buffer⟩ := by simpa using h
          subst this
          exact ⟨hcur, hc⟩
      · simp only [segRun, hparse, if_neg hcur] at hmem
        exact ih pages n buffer hp hn p hmem

/-! Lemmas about the chunker -/

theorem chunkWindowsAux_zero (cs : List Char) (size stride : Nat) :
    chunkWindowsAux 0 cs size stride = if cs.isEmpty then [] else [cs] := rfl

theorem chunkWindowsAux_succ (fuel : Nat) (cs : List Char) (size stride : Nat) :
    chunkWindowsAux (fuel + 1) cs size stride =
      if cs.length ≤ size then (if cs.isEmpty then [] else [cs])
      else cs.take size :: chunkWindowsAux fuel (cs.drop stride) size stride := rfl

theorem chunkWindowsAux_flatten_drop (ov : Nat) :
    ∀ (fuel : Nat) (cs : List Char) (size stride : Nat),
      cs.length ≤ fuel → 0 < stride → stride + ov = size →
      ((chunkWindowsAux fuel cs size stride).map (List.drop ov)).flatten =
        cs.drop ov := by
  intro fuel
  induction fuel with
  | zero =>
    intro cs size stride hf _ _
    have : cs = [] := List.length_eq_zero.mp (Nat.le_zero.mp hf)
    subst this
    simp [chunkWindowsAux_zero]
  | succ fuel ih =>
    intro cs size stride hf hs hso
    subst hso
    rw [chunkWindowsAux_succ]
    by_cases hlen : cs.length ≤ stride + ov
    · rw [if_pos hlen]
      by_cases hnil : cs.isEmpty
      · have : cs = [] := by simpa using hnil
        subst this
        simp
      · rw [if_neg hnil]
        simp
    · rw [if_neg hlen]
      simp only [List.map_cons, List.flatten_cons]
      rw [ih (cs.drop stride) (stride + ov) stride ?_ hs rfl]
      · have h1 : (cs.take (stride + ov)).drop ov = (cs.drop ov).take stride := by
          rw [Nat.add_comm stride ov]
          exact (List.take_drop ov stride cs).symm
        have h2 : (cs.drop stride).drop ov = (cs.drop ov).drop stride := by
          rw [List.drop_drop, List.drop_drop, Nat.add_comm]
        rw [h1, h2, List.take_append_drop]
      · have := List.length_drop stride cs
        omega

theorem chunkWindowsAux_reconstruct (ov : Nat) :
    ∀ (fuel : Nat) (cs : List Char) (size stride : Nat),
      cs.length ≤ fuel → 0 < stride → stride + ov = size →
      reconstructParts ov (chunkWindowsAux fuel cs size stride) = cs := by
  intro fuel
  induction fuel with
  | zero =>
    intro cs size stride hf _ _
    have : cs = [] := List.length_eq_zero.mp (Nat.le_zero.mp hf)
    subst this
    simp [chunkWindowsAux_zero, reconstructParts]
  | succ fuel ih =>
    intro cs size stride hf hs hso
    subst hso
    rw [chunkWindowsAux_succ]
    by_cases hlen : cs.length ≤ stride + ov
    · rw [if_pos hlen]
      by_cases hnil : cs.isEmpty
      · have : cs = [] := by simpa using hnil
        subst this
        simp [reconstructParts]
      · rw [if_neg hnil]
        simp [reconstructParts]
    · rw [if_neg hlen]
      simp only [reconstructParts]
      rw [chunkWindowsAux_flatten_drop ov fuel (cs.drop stride) (stride + ov)
        stride ?_ hs rfl]
      · rw [List.drop_drop, List.take_append_drop]
      · have := List.length_drop stride cs
        omega

theorem chunkWindowsAux_getElem :
    ∀ (fuel : Nat) (cs : List Char) (size stride : Nat),
      cs.length ≤ fuel → 0 < stride →
      ∀ i : Nat, i < (chunkWindowsAux fuel cs size stride).length →
      (chunkWindowsAux fuel cs size stride)[i]? =
        some ((cs.drop (i * stride)).take size) := by
  intro fuel
  induction fuel with
  | zero =>
    intro cs size stride hf hs i hi
    have : cs = [] := List.length_eq_zero.mp (Nat.le_zero.mp hf)
    subst this
    simp [chunkWindowsAux_zero] at hi
  | succ fuel ih =>
    intro cs size stride hf hs i hi
    rw [chunkWindowsAux_succ] at hi ⊢
    by_cases hlen : cs.length ≤ size
    · rw [if_pos hlen] at hi ⊢
      by_cases hnil : cs.isEmpty
      · rw [if_pos hnil] at hi
        simp at hi
      · rw [if_neg hnil] at hi ⊢
        have hi1 : i = 0 := Nat.lt_one_iff.mp (by simpa using hi)
        subst hi1
        simp [List.take_of_length_le hlen]
    · rw [if_neg hlen] at hi ⊢
      cases i with
      | zero => simp
      | succ i =>
        have hrec : (cs.drop stride).length ≤ fuel := by
          have := List.length_drop stride cs
          omega
        have hi2 : i < (chunkWindowsAux fuel (cs.drop stride) size stride).length := by
          simpa using hi
        rw [List.getElem?_cons_succ, ih (cs.drop stride) size stride hrec hs i hi2,
          List.drop_drop]
        have harith : stride + i * stride = (i + 1) * stride := by ring
        rw [harith]

theorem parseDigitsU32_isSome {ds : List Char} :
    (parseDigitsU32 ds).isSome = true ↔
      ds ≠ [] ∧ (∀ c ∈ ds, c.isDigit = true) ∧ digitsToNat ds < 4294967296 := by
  unfold parseDigitsU32
  constructor
  · intro h
    split at h
    · simp at h
    · rename_i he
      split at h
      · rename_i hall
        split at h
        · rename_i hlt
          exact ⟨by simpa using he, List.all_eq_true.mp hall, hlt⟩
        · simp at h
      · simp at h
  · rintro ⟨hne, hall, hlt⟩
    rw [if_neg (by simpa using hne), if_pos (List.all_eq_true.mpr hall),
      if_pos hlt]
    rfl

/-! Claim theorems -/

/-- Claim C1 (amended): every `Page` emitted by the segmenter has
`page_number > 0` (the sentinel `0` is never emitted), but the text of a
page emitted in mid-stream may be empty: when a pure-numeric marker line
is immediately followed by another marker line, an empty-text page IS
emitted for the first marker, so `segment "1\n2\nBody"` yields
`[{page 1, ""}, {page 2, "Body"}]`; only the final open page is subject
to the non-empty-trimmed-text check. -/
theorem segment_page_positive_c1 :
    (∀ (cs : List Char), ∀ p ∈ split_text_into_pages cs, 0 < p.page) ∧
    split_text_into_pages ("1\n2\nBody".toList) =
      [⟨1, []⟩, ⟨2, "Body".toList⟩] := by
  constructor
  · intro cs p hp
    exact (segRun_invariant (rustLines cs) [] 0 []
      (by intro q hq; simp at hq) (by norm_num) p hp).1
  · decide

theorem segment_page_positive_c1_witness :
    (⟨2, "Body".toList⟩ : Page) ∈ split_text_into_pages ("1\n2\nBody".toList) ∧
    0 < (⟨2, "Body".toList⟩ : Page).page :=
  ⟨by decide, segment_page_positive_c1.1 ("1\n2\nBody".toList)
    ⟨2, "Body".toList⟩ (by decide)⟩

/-- Claim C1 counterexample: on `"1\n2\nBody"` the code emits a page
whose trimmed text is empty (page 1), so the output is not the claimed
`[{page 2, "Body"}]`. -/
theorem segment_empty_page_counterexample_c1 :
    (⟨1, []⟩ : Page) ∈ split_text_into_pages ("1\n2\nBody".toList) ∧
    rustTrim (⟨1, []⟩ : Page).text = [] ∧
    split_text_into_pages ("1\n2\nBody".toList) ≠ [⟨2, "Body".toList⟩] := by
  exact ⟨by decide, by decide, by decide⟩

/-- Claim C2 (amended): a line is discarded exactly when every character
of its trimmed form is numeric, which is vacuously true of empty and
whitespace-only lines, so those are discarded as well; the surviving
lines are exactly the lines of the output, rejoined with single
newlines, and `filter "abc\n42\n\n7\ndef" = "abc\ndef"` (the blank
line is dropped). -/
theorem clean_text_filtering_c2 :
    (∀ cs : List Char, '\r' ∉ cs →
      rustLines (clean_text cs) = (rustLines cs).filter lineKept) ∧
    clean_text ("abc\n42\n\n7\ndef".toList) = "abc\ndef".toList :=
  ⟨fun _ h => rustLines_clean_text h, by decide⟩

theorem clean_text_filtering_c2_witness :
    rustLines (clean_text ("abc\n42\n\n7\ndef".toList)) =
      (rustLines ("abc\n42\n\n7\ndef".toList)).filter lineKept :=
  clean_text_filtering_c2.1 ("abc\n42\n\n7\ndef".toList) (by decide)

/-- Claim C2 counterexample: the blank line of `"abc\n42\n\n7\ndef"`
is NOT kept — `all is_numeric` is vacuously true on the empty trimmed
line — so the output is `"abc\ndef"`, not the claimed `"abc\n\ndef"`. -/
theorem clean_text_blank_line_counterexample_c2 :
    clean_text ("abc\n42\n\n7\ndef".toList) ≠ "abc\n\ndef".toList ∧
    lineKept ([] : List Char) = false := by
  exact ⟨by decide, rfl⟩

/-- Claim C3 (spec-modelled chunker): every produced chunk is the
contiguous window of length `chunk_size` (the final window may be
shorter) starting at `i * (chunk_size - overlap)`, with ids `0, 1, 2, …`
assigned in window order with no gaps; in particular
`chunk "abcdefghij" 4 1` is exactly `"abcd"(0)`, `"defg"(1)`,
`"ghij"(2)`. -/
theorem chunk_windows_and_ids_c3 :
    (∀ (cs : List Char) (size ov : Nat), ov < size →
      ∃ l : List TextChunk, chunk cs size ov = Except.ok l ∧
        ∀ i : Nat, i < l.length →
          l[i]? = some ⟨i, (cs.drop (i * (size - ov))).take size⟩) ∧
    chunk ("abcdefghij".toList) 4 1 =
      Except.ok [⟨0, "abcd".toList⟩, ⟨1, "defg".toList⟩, ⟨2, "ghij".toList⟩] := by
  constructor
  · intro cs size ov hov
    have hcond : ¬(size ≤ ov ∨ size = 0) := by omega
    refine ⟨(chunkWindows cs size (size - ov)).enum.map
      (fun p => ⟨p.1, p.2⟩), ?_, ?_⟩
    · unfold chunk
      rw [if_neg hcond]
    · intro i hi
      have hstride : 0 < size - ov := by omega
      have hlen : i < (chunkWindows cs size (size - ov)).length := by
        simpa [List.enum_eq_enumFrom] using hi
      have hw := chunkWindowsAux_getElem cs.length cs size (size - ov)
        (Nat.le_refl _) hstride i hlen
      simp only [List.enum_eq_enumFrom, List.getElem?_map, List.getElem?_enumFrom]
      rw [show chunkWindows cs size (size - ov) =
        chunkWindowsAux cs.length cs size (size - ov) from rfl, hw]
      simp
  · rfl

theorem chunk_windows_and_ids_c3_witness :
    ∃ l : List TextChunk, chunk ("abcdefghij".toList) 4 1 = Except.ok l ∧
      ∀ i : Nat, i < l.length →
        l[i]? = some ⟨i, (("abcdefghij".toList).drop (i * (4 - 1))).take 4⟩ :=
  chunk_windows_and_ids_c3.1 ("abcdefghij".toList) 4 1 (by decide)

/-- Claim C4: for `overlap >= chunk_size` or `chunk_size == 0` the chunker
fails with a configuration error whose message carries both supplied
values, and no chunk is produced (the result is an `error`, never a
partial list). -/
theorem chunk_bad_config_error_c4 :
    ∀ (cs : List Char) (size ov : Nat), size ≤ ov ∨ size = 0 →
      ∃ s1 s2 s3 : String, chunk cs size ov =
        Except.error (s1 ++ toString size ++ s2 ++ toString ov ++ s3) := by
  intro cs size ov h
  refine ⟨"Invalid chunk config (chunk_size=", ", overlap=", chunkCfgTail, ?_⟩
  unfold chunk
  rw [if_pos h]

theorem chunk_bad_config_error_c4_witness :
    (∃ s1 s2 s3 : String, chunk ("x".toList) 3 3 =
      Except.error (s1 ++ toString 3 ++ s2 ++ toString 3 ++ s3)) ∧
    (∃ s1 s2 s3 : String, chunk ("x".toList) 0 0 =
      Except.error (s1 ++ toString 0 ++ s2 ++ toString 0 ++ s3)) :=
  ⟨chunk_bad_config_error_c4 ("x".toList) 3 3 (Or.inl (Nat.le_refl 3)),
   chunk_bad_config_error_c4 ("x".toList) 0 0 (Or.inr rfl)⟩

/-- Claim C5 (spec-modelled chunker): for any valid configuration,
concatenating the first chunk with every later chunk minus its leading
`overlap`-sized prefix reconstructs the input exactly. -/
theorem chunk_reconstruct_c5 :
    ∀ (cs : List Char) (size ov : Nat), 0 < size → ov < size →
      ∃ l : List TextChunk, chunk cs size ov = Except.ok l ∧
        reconstructParts ov (l.map TextChunk.text) = cs := by
  intro cs size ov _ hov
  have hcond : ¬(size ≤ ov ∨ size = 0) := by omega
  refine ⟨(chunkWindows cs size (size - ov)).enum.map
    (fun p => ⟨p.1, p.2⟩), ?_, ?_⟩
  · unfold chunk
    rw [if_neg hcond]
  · have hmap : (((chunkWindows cs size (size - ov)).enum.map
        (fun p => (⟨p.1, p.2⟩ : TextChunk))).map TextChunk.text) =
        chunkWindows cs size (size - ov) := by
      rw [List.map_map]
      have hcomp : (TextChunk.text ∘ fun p : Nat × List Char =>
          (⟨p.1, p.2⟩ : TextChunk)) = Prod.snd := rfl
      rw [hcomp, List.enum_eq_enumFrom, List.enumFrom_map_snd]
    rw [hmap]
    exact chunkWindowsAux_reconstruct ov cs.length cs size (size - ov)
      (Nat.le_refl _) (by omega) (by omega)

theorem chunk_reconstruct_c5_witness :
    ∃ l : List TextChunk, chunk ("abcdefghij".toList) 4 1 = Except.ok l ∧
      reconstructParts 1 (l.map TextChunk.text) = "abcdefghij".toList :=
  chunk_reconstruct_c5 ("abcdefghij".toList) 4 1 (by decide) (by decide)

/-- Claim C6 (amended): the segmenter classifies a trimmed line as a page
marker exactly when it is a nonempty run of ASCII decimal digits whose
value fits in a `u32`, OPTIONALLY preceded by one `+` sign — Rust
`str::parse::<u32>` accepts a leading `+`, so `"+5"` IS a marker;
decimals and other leading/trailing non-digit noise are body text. -/
theorem marker_detection_c6 :
    (∀ l : List Char, (parseU32 l).isSome = true ↔ markerProp l) ∧
    split_text_into_pages ("1\nPage 3\n3.5\nX".toList) =
      [⟨1, "Page 33.5X".toList⟩] := by
  constructor
  · intro l
    constructor
    · intro h
      unfold parseU32 at h
      by_cases hplus : l.head? = some '+'
      · rw [if_pos hplus] at h
        obtain ⟨hne, hall, hlt⟩ := parseDigitsU32_isSome.mp h
        refine ⟨l.tail, Or.inr ?_, hne, hall, hlt⟩
        cases l with
        | nil => simp at hplus
        | cons c rest =>
          simp only [List.head?_cons, Option.some.injEq] at hplus
          rw [hplus]
          rfl
      · rw [if_neg hplus] at h
        obtain ⟨hne, hall, hlt⟩ := parseDigitsU32_isSome.mp h
        exact ⟨l, Or.inl rfl, hne, hall, hlt⟩
    · rintro ⟨ds, hds | hds, hne, hall, hlt⟩
      · subst hds
        unfold parseU32
        have hplus : l.head? ≠ some '+' := by
          intro hp
          cases l with
          | nil => simp at hp
          | cons c rest =>
            simp only [List.head?_cons, Option.some.injEq] at hp
            subst hp
            exact absurd (hall '+' (List.mem_cons_self _ _)) (by decide)
        rw [if_neg hplus]
        exact parseDigitsU32_isSome.mpr ⟨hne, hall, hlt⟩
      · subst hds
        unfold parseU32
        rw [if_pos (show ('+' :: ds).head? = some '+' from rfl)]
        exact parseDigitsU32_isSome.mpr ⟨hne, hall, hlt⟩
  · decide

theorem marker_detection_c6_witness :
    markerProp ("42".toList) :=
  (marker_detection_c6.1 ("42".toList)).mp (by decide)

/-- Claim C6 counterexample: the line `"+5"` is accepted as a page marker
(Rust `u32` parsing allows a leading `+` sign), so the claim that lines
with signs are never page markers is false:
`segment "1\nA\n+5\nB" = [{1, "A"}, {5, "B"}]`, with page 5 opened by
the `"+5"` line rather than `"+5"` being body text. -/
theorem marker_plus_sign_counterexample_c6 :
    split_text_into_pages ("1\nA\n+5\nB".toList) =
      [⟨1, "A".toList⟩, ⟨5, "B".toList⟩] ∧
    (∃ p ∈ split_text_into_pages ("1\nA\n+5\nB".toList), p.page = 5) ∧
    split_text_into_pages ("1\nA\n+5\nB".toList) ≠
      [⟨1, "A+5B".toList⟩] := by
  exact ⟨by decide, by decide, by decide⟩

/-- Claim C7: consecutive body lines of a page are concatenated with no
separator between them. -/
theorem segment_concatenation_c7 :
    split_text_into_pages ("1\nHello\nworld\n2\nFoo\nbar".toList) =
      [⟨1, "Helloworld".toList⟩, ⟨2, "Foobar".toList⟩] := by
  decide

/-- Claim C8 (amended): the filter is idempotent on every input that
contains no carriage return; see the counterexample for why `\r` must
be excluded. -/
theorem clean_text_idempotent_c8 :
    ∀ cs : List Char, '\r' ∉ cs →
      clean_text (clean_text cs) = clean_text cs := by
  intro cs h
  have h1 : clean_text (clean_text cs) =
      joinNl ((rustLines (clean_text cs)).filter lineKept) := rfl
  rw [h1, rustLines_clean_text h, List.filter_filter]
  simp only [Bool.and_self]
  rfl

theorem clean_text_idempotent_c8_witness :
    clean_text (clean_text ("abc\n42\n\n7\ndef".toList)) =
      clean_text ("abc\n42\n\n7\ndef".toList) :=
  clean_text_idempotent_c8 ("abc\n42\n\n7\ndef".toList) (by decide)

/-- Claim C8 counterexample: `filter` is NOT idempotent on all strings.
On `"a\r\r\nx"` the first pass keeps the line `"a\r"` (only one
`\r` is stripped before a `\n`), whose rejoined form `"a\r\nx"`
loses that `\r` on the second pass: `filter (filter t) = "a\nx"` but
`filter t = "a\r\nx"`. -/
theorem clean_text_idempotent_counterexample_c8 :
    clean_text (clean_text ("a\r\r\nx".toList)) ≠
      clean_text ("a\r\r\nx".toList) := by
  decide

/-- Claim C9: body lines preceding the first marker are not discarded —
the buffer is not cleared when the first marker opens page tracking — so
they are prepended to the first emitted page. -/
theorem segment_prefix_before_marker_c9 :
    split_text_into_pages ("intro\n1\nbody".toList) =
      [⟨1, "introbody".toList⟩] := by
  decide

/-- Claim C10: a standalone all-digit line whose value exceeds
`2 ^ 32 - 1` fails the `u32` parse, is treated as body text, and every
emitted page number is below `2 ^ 32`. -/
theorem segment_page_u32_bound_c10 :
    (∀ (cs : List Char), ∀ p ∈ split_text_into_pages cs,
      p.page < 4294967296) ∧
    split_text_into_pages ("1\n4294967296\nB".toList) =
      [⟨1, "4294967296B".toList⟩] := by
  constructor
  · intro cs p hp
    exact (segRun_invariant (rustLines cs) [] 0 []
      (by intro q hq; simp at hq) (by norm_num) p hp).2
  · decide

theorem segment_page_u32_bound_c10_witness :
    (⟨1, "4294967296B".toList⟩ : Page) ∈
      split_text_into_pages ("1\n4294967296\nB".toList) ∧
    (⟨1, "4294967296B".toList⟩ : Page).page < 4294967296 :=
  ⟨by decide, segment_page_u32_bound_c10.1 ("1\n4294967296\nB".toList)
    ⟨1, "4294967296B".toList⟩ (by decide)⟩
